import Mathlib

/-!
Verification of the ADEdge server core (`src/main.rs`) against its
natural-language specification.

Rust strings are modelled as `List Char`; machine integers (`u64`) as `Nat`
with explicit saturation / checked subtraction where the source uses
`saturating_sub` / plain `-`; `f32`/`f64` rate-limiter arithmetic as exact
rationals (`ℚ`); fallible or panicking computations as `Option`.
-/

namespace ADEdge

/-- `SESSION_MAX_AGE_MS` constant from `main.rs` (30 days in milliseconds). -/
def SESSION_MAX_AGE_MS : Nat := 30 * 24 * 60 * 60 * 1000

/-! ## `timing_equal` (main.rs lines 236-245)

The byte strings `a.as_bytes()` are modelled as the lists of character
codes.  The loop `for i in 0..len { diff |= (ab[i] ^ bb[i]) as usize }`
over `len = min |a| |b|` is rendered as a fold over `zipWith`, whose
length is exactly `min |a| |b|` and whose `i`-th element is the xor of
the `i`-th bytes. -/

/-- Embedding of `timing_equal`: `diff` starts as the xor of the two
lengths and accumulates the xor of each common-index byte pair with
bitwise or; the result is `diff == 0`. -/
def timing_equal (a b : List Char) : Bool :=
  let ab := a.map Char.toNat
  let bb := b.map Char.toNat
  let diff0 := ab.length ^^^ bb.length
  let diff := (List.zipWith (fun x y => x ^^^ y) ab bb).foldl (fun x y => x ||| y) diff0
  diff == 0

/-! ## Decimal / token string helpers

`format!("{}", ts)` renders a `u64` in decimal; `str::parse::<u64>` parses
an optional leading `'+'` followed by one or more ASCII digits, rejecting
values above `u64::MAX`. -/

/-- Numeric value of an ASCII digit character (byte value minus 48). -/
def digitVal (c : Char) : Nat := c.toNat - 48

/-- Decimal rendering of a nonzero `Nat`, fuel-indexed so that the
recursion is structural (`fuel ≥ n` suffices). -/
def toDecAux : Nat → Nat → List Char
  | 0, _ => []
  | fuel + 1, n => if n = 0 then [] else toDecAux fuel (n / 10) ++ [Nat.digitChar (n % 10)]

/-- Decimal rendering of a `Nat`, as produced by `format!("{}", n)`. -/
def natToDec (n : Nat) : List Char :=
  if n = 0 then ['0'] else toDecAux n n

/-- Embedding of `str::parse::<u64>`: optional leading `'+'`, then a
non-empty run of ASCII digits whose value fits in a `u64`. -/
def parseU64 (s : List Char) : Option Nat :=
  let t := if s.headD ' ' = '+' then s.tail else s
  if t ≠ [] ∧ t.all Char.isDigit then
    let v := t.foldl (fun a c => a * 10 + digitVal c) 0
    if v < 2 ^ 64 then some v else none
  else none

/-! ## Splitting on `'.'` (Rust `str::split('.')` / `Vec::join(".")`) -/

/-- Embedding of `cookie_val.split('.').collect::<Vec<_>>()`: a `'.'`
opens a new (initially empty) field, any other character is prepended to
the first field of the split of the remainder (which is always
non-empty, so the `headD`/`tail` defaults are never used). -/
def splitDot : List Char → List (List Char)
  | [] => [[]]
  | c :: rest =>
    if c = '.' then [] :: splitDot rest
    else (c :: (splitDot rest).headD []) :: (splitDot rest).tail

/-- Embedding of `parts.join(".")`. -/
def joinDot : List (List Char) → List Char
  | [] => []
  | [x] => x
  | x :: xs => x ++ '.' :: joinDot xs

/-! ## HMAC-hex signing (main.rs `hmac_sign`, lines 229-233)

The SHA-256 HMAC itself is library code outside this repository; it is
modelled as an arbitrary deterministic `digest` function from secret and
payload to a list of bytes.  `hex::encode` is embedded concretely: each
byte becomes two hex digit characters. -/

/-- Embedding of `hex::encode`: each byte yields its high and low hex
nibble characters. -/
def hexEncode (bytes : List Nat) : List Char :=
  bytes.flatMap (fun b => [Nat.digitChar (b / 16 % 16), Nat.digitChar (b % 16)])

/-- Embedding of `hmac_sign`: hex encoding of the (abstract) HMAC digest
of the payload under the secret. -/
def hmac_sign (digest : List Char → List Char → List Nat)
    (secret payload : List Char) : List Char :=
  hexEncode (digest secret payload)

/-! ## Session sign / verify (main.rs lines 507-531) -/

/-- Embedding of `sign_session`: payload is `"{username}.{ts}"`, token is
`"{payload}.{mac}"`. -/
def sign_session (digest : List Char → List Char → List Nat)
    (secret username : List Char) (ts : Nat) : List Char :=
  let payload := username ++ '.' :: natToDec ts
  payload ++ '.' :: hmac_sign digest secret payload

/-- Embedding of `verify_session` at current time `now` (milliseconds):
split on `'.'`, require at least 3 parts, pop the MAC then the timestamp
off the end, rejoin the remainder as the username, recompute and compare
the MAC in fixed time, parse the timestamp, and reject when the
saturating age `now - ts` exceeds the maximum session age. -/
def verify_session (digest : List Char → List Char → List Nat)
    (secret : List Char) (now : Nat) (cookie : List Char) : Option (List Char) :=
  let parts := splitDot cookie
  if parts.length < 3 then none
  else
    let mac := parts.getLastD []
    let rest1 := parts.dropLast
    let ts := rest1.getLastD []
    let username := joinDot rest1.dropLast
    let expected := hmac_sign digest secret (username ++ '.' :: ts)
    if timing_equal expected mac then
      match parseU64 ts with
      | none => none
      | some tsNum =>
        if now - tsNum > SESSION_MAX_AGE_MS then none else some username
    else none

/-! ## Basic lemmas about the helpers -/

theorem lor_eq_zero_iff (n m : Nat) : n ||| m = 0 ↔ n = 0 ∧ m = 0 := by
  constructor
  · intro h
    constructor
    · apply Nat.eq_of_testBit_eq
      intro k
      have hb := Nat.testBit_lor n m k
      rw [h] at hb
      simp [Nat.zero_testBit] at hb ⊢
      exact hb.1
    · apply Nat.eq_of_testBit_eq
      intro k
      have hb := Nat.testBit_lor n m k
      rw [h] at hb
      simp [Nat.zero_testBit] at hb ⊢
      exact hb.2
  · rintro ⟨rfl, rfl⟩; rfl

theorem foldl_lor_eq_zero (l : List Nat) (init : Nat) :
    l.foldl (fun x y => x ||| y) init = 0 ↔ init = 0 ∧ ∀ x ∈ l, x = 0 := by
  induction l generalizing init with
  | nil => simp
  | cons y ys ih =>
    simp only [List.foldl_cons, ih, List.mem_cons]
    constructor
    · rintro ⟨h0, hall⟩
      have := (lor_eq_zero_iff init y).mp h0
      exact ⟨this.1, fun x hx => hx.elim (fun he => he ▸ this.2) (hall x)⟩
    · rintro ⟨h0, hall⟩
      refine ⟨(lor_eq_zero_iff init y).mpr ⟨h0, hall y (Or.inl rfl)⟩, fun x hx => hall x (Or.inr hx)⟩

theorem char_toNat_inj {a b : Char} (h : a.toNat = b.toNat) : a = b :=
  Char.eq_of_val_eq (UInt32.ext h)

theorem eq_of_zipWith_xor_zero :
    ∀ (l1 l2 : List Nat), l1.length = l2.length →
      (∀ x ∈ List.zipWith (fun x y => x ^^^ y) l1 l2, x = 0) → l1 = l2 := by
  intro l1
  induction l1 with
  | nil =>
    intro l2 h _
    cases l2 with
    | nil => rfl
    | cons y ys => simp at h
  | cons x xs ih =>
    intro l2 h hall
    cases l2 with
    | nil => simp at h
    | cons y ys =>
      simp only [List.zipWith_cons_cons, List.mem_cons] at hall
      have hx : x = y := Nat.xor_eq_zero.mp (hall _ (Or.inl rfl))
      have : xs = ys := by
        refine ih ys (by simpa using h) fun z hz => hall z (Or.inr hz)
      rw [hx, this]

/-- `timing_equal` returns `true` exactly on identical strings. -/
theorem timing_equal_eq_iff (a b : List Char) : timing_equal a b = true ↔ a = b := by
  unfold timing_equal
  simp only [beq_iff_eq, foldl_lor_eq_zero, List.length_map]
  constructor
  · rintro ⟨hlen, hall⟩
    have hl : a.length = b.length := Nat.xor_eq_zero.mp hlen
    have hmaps : a.map Char.toNat = b.map Char.toNat :=
      eq_of_zipWith_xor_zero _ _ (by simp [hl]) hall
    exact List.map_injective_iff.mpr (fun c d => char_toNat_inj) hmaps
  · rintro rfl
    refine ⟨by simp [Nat.xor_self], fun x hx => ?_⟩
    rw [List.zipWith_same] at hx
    obtain ⟨c, _, rfl⟩ := List.mem_map.mp hx
    exact Nat.xor_self _

/-! ## Lemmas about `splitDot` / `joinDot` -/

theorem splitDot_ne_nil (s : List Char) : splitDot s ≠ [] := by
  cases s with
  | nil => simp [splitDot]
  | cons c rest =>
    by_cases hc : c = '.' <;> simp [splitDot, hc]

theorem splitDot_no_dot {m : List Char} (hm : '.' ∉ m) : splitDot m = [m] := by
  induction m with
  | nil => rfl
  | cons c rest ih =>
    have hc : c ≠ '.' := fun he => hm (he ▸ List.mem_cons_self c rest)
    have hrest : '.' ∉ rest := fun hr => hm (List.mem_cons_of_mem c hr)
    simp [splitDot, ih hrest, hc]

theorem splitDot_append {m : List Char} (xs : List Char) (hm : '.' ∉ m) :
    splitDot (xs ++ '.' :: m) = splitDot xs ++ [m] := by
  induction xs with
  | nil =>
    simp [splitDot, splitDot_no_dot hm]
  | cons c xs ih =>
    rcases h : splitDot xs with _ | ⟨p, ps⟩
    · exact absurd h (splitDot_ne_nil xs)
    · rw [List.cons_append]
      by_cases hc : c = '.' <;> simp [splitDot, hc, ih, h]

theorem joinDot_cons_cons (c : Char) (p : List Char) (ps : List (List Char)) :
    joinDot ((c :: p) :: ps) = c :: joinDot (p :: ps) := by
  cases ps <;> simp [joinDot]

theorem joinDot_splitDot (s : List Char) : joinDot (splitDot s) = s := by
  induction s with
  | nil => rfl
  | cons c rest ih =>
    rcases h : splitDot rest with _ | ⟨p, ps⟩
    · exact absurd h (splitDot_ne_nil rest)
    · rw [h] at ih
      by_cases hc : c = '.'
      · have hs : splitDot (c :: rest) = [] :: p :: ps := by
          simp [splitDot, hc, h]
        rw [hs]
        simp only [joinDot, List.nil_append]
        rw [ih, hc]
      · have hs : splitDot (c :: rest) = (c :: p) :: ps := by
          simp [splitDot, hc, h]
        rw [hs, joinDot_cons_cons, ih]

/-! ## Decimal rendering / parsing round-trip -/

theorem digitChar_isDigit {d : Nat} (h : d < 10) : (Nat.digitChar d).isDigit = true := by
  interval_cases d <;> decide

theorem digitVal_digitChar {d : Nat} (h : d < 10) : digitVal (Nat.digitChar d) = d := by
  interval_cases d <;> decide

theorem digitChar_ne_dot {d : Nat} (h : d < 16) : Nat.digitChar d ≠ '.' := by
  interval_cases d <;> decide

theorem isDigit_ne_dot {c : Char} (h : c.isDigit = true) : c ≠ '.' := by
  intro he
  rw [he] at h
  exact absurd h (by decide)

theorem isDigit_ne_plus {c : Char} (h : c.isDigit = true) : c ≠ '+' := by
  intro he
  rw [he] at h
  exact absurd h (by decide)

theorem isDigit_ne_dash {c : Char} (h : c.isDigit = true) : c ≠ '-' := by
  intro he
  rw [he] at h
  exact absurd h (by decide)

theorem toDecAux_all_digits (fuel : Nat) : ∀ n, ∀ c ∈ toDecAux fuel n, c.isDigit = true := by
  induction fuel with
  | zero =>
    intro n c hc
    simp [toDecAux] at hc
  | succ fuel ih =>
    intro n c hc
    by_cases hn : n = 0
    · simp [toDecAux, hn] at hc
    · simp only [toDecAux, if_neg hn] at hc
      rcases List.mem_append.mp hc with h1 | h2
      · exact ih _ c h1
      · rw [List.mem_singleton] at h2
        exact h2 ▸ digitChar_isDigit (Nat.mod_lt _ (by norm_num))

theorem toDecAux_ne_nil {fuel n : Nat} (hn : n ≠ 0) (hf : n ≤ fuel) :
    toDecAux fuel n ≠ [] := by
  cases fuel with
  | zero => omega
  | succ fuel => simp [toDecAux, hn]

theorem toDecAux_foldl (fuel : Nat) : ∀ n a, n ≤ fuel →
    (toDecAux fuel n).foldl (fun acc c => acc * 10 + digitVal c) a
      = a * 10 ^ (toDecAux fuel n).length + n := by
  induction fuel with
  | zero =>
    intro n a h
    interval_cases n
    simp [toDecAux]
  | succ fuel ih =>
    intro n a h
    by_cases hn : n = 0
    · simp [toDecAux, hn]
    · have hdiv : n / 10 ≤ fuel := by
        have := Nat.div_lt_self (Nat.pos_of_ne_zero hn) (by norm_num : 1 < 10)
        omega
      have hmod : n % 10 < 10 := Nat.mod_lt _ (by norm_num)
      simp only [toDecAux, if_neg hn, List.foldl_append, List.foldl_cons, List.foldl_nil,
        List.length_append, List.length_cons, List.length_nil]
      rw [ih _ a hdiv, digitVal_digitChar hmod]
      have hp : (10 : Nat) ^ ((toDecAux fuel (n / 10)).length + 0 + 1)
          = 10 ^ (toDecAux fuel (n / 10)).length * 10 := by
        rw [Nat.add_zero, pow_succ]
      rw [hp]
      have hdm : n / 10 * 10 + n % 10 = n := by omega
      calc (a * 10 ^ (toDecAux fuel (n / 10)).length + n / 10) * 10 + n % 10
          = a * (10 ^ (toDecAux fuel (n / 10)).length * 10) + (n / 10 * 10 + n % 10) := by
            ring
        _ = a * (10 ^ (toDecAux fuel (n / 10)).length * 10) + n := by rw [hdm]

theorem natToDec_all_digits (n : Nat) : ∀ c ∈ natToDec n, c.isDigit = true := by
  intro c hc
  by_cases hn : n = 0
  · simp [natToDec, hn] at hc
    rw [hc]
    decide
  · rw [natToDec, if_neg hn] at hc
    exact toDecAux_all_digits n n c hc

theorem natToDec_ne_nil (n : Nat) : natToDec n ≠ [] := by
  by_cases hn : n = 0
  · simp [natToDec, hn]
  · rw [natToDec, if_neg hn]
    exact toDecAux_ne_nil hn le_rfl

theorem natToDec_no_dot (n : Nat) : '.' ∉ natToDec n :=
  fun h => isDigit_ne_dot (natToDec_all_digits n _ h) rfl

theorem natToDec_foldl (n : Nat) :
    (natToDec n).foldl (fun acc c => acc * 10 + digitVal c) 0 = n := by
  by_cases hn : n = 0
  · simp [natToDec, hn, digitVal]
  · rw [natToDec, if_neg hn, toDecAux_foldl n n 0 le_rfl, Nat.zero_mul, Nat.zero_add]

/-- Parsing inverts decimal rendering for every value that fits a `u64`. -/
theorem parseU64_natToDec {n : Nat} (h : n < 2 ^ 64) : parseU64 (natToDec n) = some n := by
  have hne := natToDec_ne_nil n
  have hdig := natToDec_all_digits n
  have hhead : (natToDec n).headD ' ' ≠ '+' := by
    cases hnd : natToDec n with
    | nil => exact absurd hnd hne
    | cons c cs =>
      simp only [List.headD_cons]
      exact isDigit_ne_plus (hdig c (hnd ▸ List.mem_cons_self c cs))
  have hall : (natToDec n).all Char.isDigit = true := List.all_eq_true.mpr hdig
  simp only [parseU64, if_neg hhead]
  rw [if_pos ⟨hne, hall⟩, natToDec_foldl, if_pos h]

/-! ## Session verification lemmas -/

theorem hexEncode_no_dot (bytes : List Nat) : '.' ∉ hexEncode bytes := by
  intro h
  obtain ⟨b, _, hmem⟩ := List.mem_flatMap.mp h
  simp only [List.mem_cons, List.not_mem_nil, or_false] at hmem
  rcases hmem with h1 | h1
  · exact digitChar_ne_dot (Nat.mod_lt _ (by norm_num)) h1.symm
  · exact digitChar_ne_dot (Nat.mod_lt _ (by norm_num)) h1.symm

/-- Evaluation of `verify_session` on a token of the shape
`payload ++ "." ++ mac` with `payload = username ++ "." ++ tsStr`, where
neither `tsStr` nor `mac` contains the separator: the split recovers
exactly `username`, `tsStr` and `mac`. -/
theorem verify_session_structure (digest : List Char → List Char → List Nat)
    (secret : List Char) (now : Nat) (u tsStr mac : List Char)
    (hts : '.' ∉ tsStr) (hmac : '.' ∉ mac) :
    verify_session digest secret now ((u ++ '.' :: tsStr) ++ '.' :: mac) =
      (if timing_equal (hmac_sign digest secret (u ++ '.' :: tsStr)) mac then
        match parseU64 tsStr with
        | none => none
        | some tsNum =>
          if now - tsNum > SESSION_MAX_AGE_MS then none else some u
      else none) := by
  have hsplit : splitDot ((u ++ '.' :: tsStr) ++ '.' :: mac)
      = (splitDot u ++ [tsStr]) ++ [mac] := by
    rw [splitDot_append _ hmac, splitDot_append _ hts]
  have hlen : ¬ (splitDot ((u ++ '.' :: tsStr) ++ '.' :: mac)).length < 3 := by
    rw [hsplit]
    rcases hu : splitDot u with _ | ⟨p, ps⟩
    · exact absurd hu (splitDot_ne_nil u)
    · simp
  unfold verify_session
  rw [if_neg hlen, hsplit]
  simp only [List.getLastD_concat, List.dropLast_concat, joinDot_splitDot]

/-- **C2.** Verifying a session token immediately after issuing it for a
non-empty username `u` with the same server secret returns `some u`,
including when `u` contains the `'.'` separator: `verify_session` splits
from the right, so the MAC and timestamp are recovered exactly and the
remainder rejoins to `u`.  `digest` is the (arbitrary deterministic)
HMAC-SHA256 digest; `now - ts ≤ SESSION_MAX_AGE_MS` holds in particular
immediately after issuance (`now = ts`). -/
theorem verify_after_sign (digest : List Char → List Char → List Nat)
    (secret u : List Char) (ts now : Nat)
    (hu : u ≠ [])
    (hts : ts < 2 ^ 64)
    (hage : now - ts ≤ SESSION_MAX_AGE_MS) :
    verify_session digest secret now (sign_session digest secret u ts) = some u := by
  have hsign : sign_session digest secret u ts
      = (u ++ '.' :: natToDec ts) ++ '.' :: hmac_sign digest secret (u ++ '.' :: natToDec ts) := by
    simp [sign_session]
  rw [hsign,
    verify_session_structure digest secret now u (natToDec ts)
      (hmac_sign digest secret (u ++ '.' :: natToDec ts))
      (natToDec_no_dot ts) (hexEncode_no_dot _),
    if_pos ((timing_equal_eq_iff _ _).mpr rfl), parseU64_natToDec hts]
  show (if now - ts > SESSION_MAX_AGE_MS then (none : Option (List Char)) else some u) = some u
  exact if_neg (by omega)

/-- Witness for C2 at a concrete input: username `"a.b"` (containing the
separator), timestamp 5, verified at time 7 with a concrete digest
function. -/
theorem verify_after_sign_witness :
    (['a', '.', 'b'] : List Char) ≠ [] ∧ 5 < 2 ^ 64 ∧ 7 - 5 ≤ SESSION_MAX_AGE_MS ∧
    verify_session (fun _ _ => [7, 200]) ['s'] 7
      (sign_session (fun _ _ => [7, 200]) ['s'] ['a', '.', 'b'] 5) = some ['a', '.', 'b'] :=
  ⟨by decide, by decide, by decide,
    verify_after_sign (fun _ _ => [7, 200]) ['s'] ['a', '.', 'b'] 5 7
      (by decide) (by decide) (by decide)⟩

/-- **C10.** The age check uses saturating subtraction, so a token whose
embedded timestamp lies strictly in the future has age `0` and is never
rejected as expired: for every such MAC-valid token, verification
returns the embedded username, no matter how far ahead the timestamp
lies. -/
theorem postdated_token_accepted (digest : List Char → List Char → List Nat)
    (secret u : List Char) (ts now : Nat)
    (hts : ts < 2 ^ 64)
    (hfuture : now < ts) :
    verify_session digest secret now (sign_session digest secret u ts) = some u := by
  have hsign : sign_session digest secret u ts
      = (u ++ '.' :: natToDec ts) ++ '.' :: hmac_sign digest secret (u ++ '.' :: natToDec ts) := by
    simp [sign_session]
  rw [hsign,
    verify_session_structure digest secret now u (natToDec ts)
      (hmac_sign digest secret (u ++ '.' :: natToDec ts))
      (natToDec_no_dot ts) (hexEncode_no_dot _),
    if_pos ((timing_equal_eq_iff _ _).mpr rfl), parseU64_natToDec hts]
  show (if now - ts > SESSION_MAX_AGE_MS then (none : Option (List Char)) else some u) = some u
  exact if_neg (by omega)

/-- Witness for C10 at a concrete input: a token issued with timestamp
`10 ^ 15` (far in the future) verified at time 3. -/
theorem postdated_token_accepted_witness :
    10 ^ 15 < 2 ^ 64 ∧ 3 < 10 ^ 15 ∧
    verify_session (fun _ _ => [1]) ['k'] 3
      (sign_session (fun _ _ => [1]) ['k'] ['u'] (10 ^ 15)) = some ['u'] :=
  ⟨by norm_num, by norm_num,
    postdated_token_accepted (fun _ _ => [1]) ['k'] ['u'] (10 ^ 15) 3
      (by norm_num) (by norm_num)⟩

/-- **C7.** The fixed-time comparison `timing_equal` returns `true` if
and only if its two inputs are byte-for-byte identical (the result
accumulates every byte difference of the common range together with the
xor of the two lengths, so no pair of distinct strings compares equal);
and session verification rejects (returns `none` for) every token whose
MAC part differs from the recomputed MAC. -/
theorem timing_equal_correct :
    (∀ a b : List Char, timing_equal a b = true ↔ a = b) ∧
    (∀ (digest : List Char → List Char → List Nat) (secret : List Char) (now : Nat)
        (u tsStr mac : List Char), '.' ∉ tsStr → '.' ∉ mac →
      mac ≠ hmac_sign digest secret (u ++ '.' :: tsStr) →
      verify_session digest secret now ((u ++ '.' :: tsStr) ++ '.' :: mac) = none) := by
  refine ⟨timing_equal_eq_iff, ?_⟩
  intro digest secret now u tsStr mac hts hmac hne
  rw [verify_session_structure digest secret now u tsStr mac hts hmac,
    if_neg (fun h => hne ((timing_equal_eq_iff _ _).mp h).symm)]

/-- Witness for C7 at a concrete input: a token whose MAC part `"z"`
differs from the recomputed MAC is rejected. -/
theorem timing_equal_correct_witness :
    ('.' ∉ (['1'] : List Char)) ∧ ('.' ∉ (['z'] : List Char)) ∧
    (['z'] : List Char) ≠ hmac_sign (fun _ _ => []) [] (['u'] ++ '.' :: ['1']) ∧
    verify_session (fun _ _ => []) [] 0 ((['u'] ++ '.' :: ['1']) ++ '.' :: ['z']) = none :=
  ⟨by decide, by decide, by decide,
    timing_equal_correct.2 (fun _ _ => []) [] 0 ['u'] ['1'] ['z']
      (by decide) (by decide) (by decide)⟩

/-! ## Rate limiter (`allow_rate`, main.rs lines 486-504)

The bucket's `tokens: f32` and the `f64` clock are modelled as exact
rationals; `now_s_f64()` is passed in explicitly as `now`.  A fresh
bucket (the `or_insert_with` arm) holds `cfg.rate_tokens = capacity`
tokens and `last = now`. -/

/-- Per-client bucket state (`RateBucket` in main.rs). -/
structure RateBucket where
  tokens : ℚ
  last : ℚ
deriving DecidableEq

/-- Bucket created by the `or_insert_with` arm of `allow_rate`. -/
def freshBucket (cap now : ℚ) : RateBucket := ⟨cap, now⟩

/-- Embedding of one `allow_rate` check: refill by
`elapsed * refill_rate` clamped to capacity (elapsed clamped below at
`0.0` by `.max(0.0)`), stamp `last = now`, then spend one token if at
least one is available. -/
def allow_rate (cap refill now : ℚ) (b : RateBucket) : Bool × RateBucket :=
  let elapsed := max (now - b.last) 0
  let tokens := min (b.tokens + elapsed * refill) cap
  if 1 ≤ tokens then (true, ⟨tokens - 1, now⟩) else (false, ⟨tokens, now⟩)

/-- `n` consecutive `allow_rate` checks at the same instant `now`,
returning the number of allowed checks and the final bucket. -/
def repeatChecks (cap refill now : ℚ) : Nat → RateBucket → Nat × RateBucket
  | 0, b => (0, b)
  | n + 1, b =>
    let r := allow_rate cap refill now b
    let rest := repeatChecks cap refill now n r.2
    ((if r.1 then 1 else 0) + rest.1, rest.2)

theorem allow_rate_eval (cap refill now t last : ℚ) :
    allow_rate cap refill now ⟨t, last⟩ =
      (if 1 ≤ min (t + max (now - last) 0 * refill) cap
       then (true, ⟨min (t + max (now - last) 0 * refill) cap - 1, now⟩)
       else (false, ⟨min (t + max (now - last) 0 * refill) cap, now⟩)) := rfl

theorem repeatChecks_drain (cap refill now : ℚ) :
    ∀ (n : Nat) (t : ℚ), t ≤ cap → (n : ℚ) ≤ t →
      repeatChecks cap refill now n ⟨t, now⟩ = (n, ⟨t - n, now⟩) := by
  intro n
  induction n with
  | zero => intro t _ _; simp [repeatChecks]
  | succ n ih =>
    intro t hcap hn
    have h1 : (1 : ℚ) ≤ t := by
      have : ((n : ℚ) + 1) ≤ t := by push_cast at hn ⊢; linarith
      linarith [Nat.cast_nonneg (α := ℚ) n]
    have hstep : allow_rate cap refill now ⟨t, now⟩ = (true, ⟨t - 1, now⟩) := by
      rw [allow_rate_eval]
      have ht : min (t + max (now - now) 0 * refill) cap = t := by
        rw [sub_self, max_self, zero_mul, add_zero]
        exact min_eq_left hcap
      rw [ht, if_pos h1]
    have hrec := ih (t - 1) (by linarith) (by push_cast at hn ⊢; linarith)
    unfold repeatChecks
    rw [hstep]
    simp only [hrec, Prod.mk.injEq]
    constructor
    · exact add_comm 1 n
    · congr 1
      push_cast
      ring

/-- **C4.** Token bucket behaviour (with the `f32` arithmetic of the
source modelled as exact rational arithmetic): a fresh bucket starts
with `cap` tokens; `N ≤ cap` consecutive checks with zero elapsed time
are all allowed and leave exactly `cap - N` tokens; when fewer than one
token remains, a further zero-elapsed check is denied and leaves the
count unchanged; and once at least `1 / refill` seconds have elapsed,
the next check is allowed again. -/
theorem rate_limiter_behaviour (cap refill now e : ℚ) (N : Nat)
    (hN : (N : ℚ) ≤ cap) (hcap1 : 1 ≤ cap) (hrefill : 0 < refill)
    (hrem : cap - (N : ℚ) < 1) (he : 1 / refill ≤ e) :
    (freshBucket cap now).tokens = cap ∧
    repeatChecks cap refill now N (freshBucket cap now) = (N, ⟨cap - N, now⟩) ∧
    allow_rate cap refill now ⟨cap - N, now⟩ = (false, ⟨cap - N, now⟩) ∧
    (allow_rate cap refill (now + e) ⟨cap - N, now⟩).1 = true := by
  refine ⟨rfl, repeatChecks_drain cap refill now N cap le_rfl hN, ?_, ?_⟩
  · rw [allow_rate_eval]
    have ht : min (cap - (N : ℚ) + max (now - now) 0 * refill) cap = cap - (N : ℚ) := by
      rw [sub_self, max_self, zero_mul, add_zero]
      refine min_eq_left (by linarith [Nat.cast_nonneg (α := ℚ) N])
    rw [ht, if_neg (by linarith)]
  · rw [allow_rate_eval]
    have he1 : max (now + e - now) 0 = e := by
      have : (0 : ℚ) < e := lt_of_lt_of_le (by positivity) he
      rw [max_eq_left] <;> linarith
    rw [he1]
    have hge : 1 ≤ min (cap - (N : ℚ) + e * refill) cap := by
      have h1 : 1 / refill * refill = 1 := div_mul_cancel₀ 1 (ne_of_gt hrefill)
      have h2 : (1 : ℚ) ≤ e * refill := by
        calc (1 : ℚ) = 1 / refill * refill := h1.symm
          _ ≤ e * refill := mul_le_mul_of_nonneg_right he (le_of_lt hrefill)
      have h3 : (0 : ℚ) ≤ cap - (N : ℚ) := by linarith
      exact le_min (by linarith) hcap1
    rw [if_pos hge]

/-- Witness for C4 at a concrete input: capacity 3, refill rate `1/2`
token per second, 3 zero-elapsed checks, then a denied fourth check,
then an allowed check after 2 seconds. -/
theorem rate_limiter_behaviour_witness :
    ((3 : Nat) : ℚ) ≤ 3 ∧ (1 : ℚ) ≤ 3 ∧ (0 : ℚ) < 1 / 2 ∧
    (3 : ℚ) - ((3 : Nat) : ℚ) < 1 ∧ (1 : ℚ) / (1 / 2) ≤ 2 ∧
    ((freshBucket 3 0).tokens = 3 ∧
      repeatChecks 3 (1 / 2) 0 3 (freshBucket 3 0) = (3, ⟨3 - (3 : Nat), 0⟩) ∧
      allow_rate 3 (1 / 2) 0 ⟨3 - ((3 : Nat) : ℚ), 0⟩ = (false, ⟨3 - ((3 : Nat) : ℚ), 0⟩) ∧
      (allow_rate 3 (1 / 2) (0 + 2) ⟨3 - ((3 : Nat) : ℚ), 0⟩).1 = true) :=
  ⟨by norm_num, by norm_num, by norm_num, by norm_num, by norm_num,
    rate_limiter_behaviour 3 (1 / 2) 0 2 3
      (by norm_num) (by norm_num) (by norm_num) (by norm_num) (by norm_num)⟩

/-! ## Range-aware object serving (`image_raw`, main.rs lines 1137-1218)

The stored file is a list of bytes; `total_len` is its length.  Header
strings are `List Char`.  `none` models a `u64` underflow panic. -/

/-- Embedding of `str::strip_prefix`. -/
def stripPre (pre s : List Char) : Option (List Char) :=
  if s.take pre.length = pre then some (s.drop pre.length) else none

/-- Embedding of `str::split_once('-')`: split at the first `'-'`. -/
def splitOnceDash : List Char → Option (List Char × List Char)
  | [] => none
  | c :: rest =>
    if c = '-' then some ([], rest)
    else
      match splitOnceDash rest with
      | none => none
      | some (a, b) => some (c :: a, b)

/-- The `Content-Range` header string
`format!("bytes {}-{}/{}", start, end, total)`. -/
def contentRangeHdr (s e total : Nat) : List Char :=
  ("bytes ".toList) ++ natToDec s ++ '-' :: natToDec e ++ '/' :: natToDec total

/-- The observable parts of a partial-content response from the range
branch of `image_raw` (status `PARTIAL_CONTENT`): the streamed body
(`file.seek(start)` + `take(len)`), the `Content-Range` header and the
`Content-Length` value. -/
structure PartialResponse where
  body : List Nat
  contentRange : List Char
  contentLength : Nat
deriving DecidableEq

/-- Replies of `image_raw` relevant to range handling. -/
inductive RangeReply where
  | notSatisfiable
  | partialContent (p : PartialResponse)
  | fullContent (body : List Nat) (contentLength : Nat)
deriving DecidableEq

/-- Lines 1163-1194 of main.rs: the `start > end` check and the 206
response; `seek(start)` + `take(len)` stream at most `len` bytes from
offset `start`, rendered as `(file.drop s).take len`. -/
def rangeServe (file : List Nat) (s e : Nat) : Option RangeReply :=
  if s > e then some .notSatisfiable
  else
    some (.partialContent
      ⟨(file.drop s).take (e - s + 1), contentRangeHdr s e file.length, e - s + 1⟩)

/-- Line 1162 of main.rs: `if end >= total_len { end = total_len - 1; }`
with an **unchecked** `u64` subtraction, so `total_len = 0` panics
(`none`). -/
def rangeClamp (file : List Nat) (s e0 : Nat) : Option RangeReply :=
  if e0 ≥ file.length then
    match file.length with
    | 0 => none
    | m + 1 => rangeServe file s m
  else rangeServe file s e0

/-- Embedding of the `image_raw` response computation after the file has
been found (lines 1154-1217): no `bytes=` prefix serves the full file;
a `bytes=` value without `'-'` leaves the defaults `start = 0`,
`end = total_len.saturating_sub(1)` (line 1157, saturating) and skips
the clamp and the bounds check; a value `s-e` parses each side with
`str::parse::<u64>`, keeping the default on an empty or unparsable
side, then clamps and serves. -/
def image_raw_range (file : List Nat) (rangeHdr : List Char) : Option RangeReply :=
  match stripPre ("bytes=".toList) rangeHdr with
  | none => some (.fullContent file file.length)
  | some rest =>
    match splitOnceDash rest with
    | none =>
      let len := (file.length - 1) - 0 + 1
      some (.partialContent
        ⟨(file.drop 0).take len, contentRangeHdr 0 (file.length - 1) file.length, len⟩)
    | some (sStr, eStr) =>
      rangeClamp file ((parseU64 sStr).getD 0) ((parseU64 eStr).getD (file.length - 1))

theorem stripPre_append (p r : List Char) : stripPre p (p ++ r) = some r := by
  simp [stripPre]

theorem splitOnceDash_append {a : List Char} (b : List Char) (ha : '-' ∉ a) :
    splitOnceDash (a ++ '-' :: b) = some (a, b) := by
  induction a with
  | nil => simp [splitOnceDash]
  | cons c cs ih =>
    have hc : c ≠ '-' := fun he => ha (he ▸ List.mem_cons_self c cs)
    have hcs : '-' ∉ cs := fun hm => ha (List.mem_cons_of_mem c hm)
    simp [splitOnceDash, hc, ih hcs]

theorem natToDec_no_dash (n : Nat) : '-' ∉ natToDec n :=
  fun h => isDigit_ne_dash (natToDec_all_digits n _ h) rfl

theorem parseU64_nil : parseU64 [] = none := rfl

/-- For a file of length at least 1, the clamp step equals taking
`min end (total_len - 1)` and never reaches the underflow arm. -/
theorem rangeClamp_eq_serve (file : List Nat) (s e0 : Nat) (hL : 1 ≤ file.length) :
    rangeClamp file s e0 = rangeServe file s (min e0 (file.length - 1)) := by
  unfold rangeClamp
  by_cases hcl : e0 ≥ file.length
  · rw [if_pos hcl]
    obtain ⟨m, hm⟩ : ∃ m, file.length = m + 1 := ⟨file.length - 1, by omega⟩
    rw [hm] at hcl
    rw [hm]
    show rangeServe file s m = rangeServe file s (min e0 (m + 1 - 1))
    rw [Nat.add_sub_cancel, Nat.min_eq_right (by omega)]
  · rw [if_neg hcl, Nat.min_eq_left (by omega)]

/-- Reduction of `image_raw_range` on a header with the `bytes=` prefix
and a `'-'` in the range value. -/
theorem image_raw_range_dash (file : List Nat) (a b : List Char) (ha : '-' ∉ a) :
    image_raw_range file (("bytes=".toList) ++ (a ++ '-' :: b)) =
      rangeClamp file ((parseU64 a).getD 0) ((parseU64 b).getD (file.length - 1)) := by
  have h1 : image_raw_range file (("bytes=".toList) ++ (a ++ '-' :: b)) =
      match splitOnceDash (a ++ '-' :: b) with
      | none =>
        some (.partialContent
          ⟨(file.drop 0).take ((file.length - 1) - 0 + 1),
            contentRangeHdr 0 (file.length - 1) file.length, (file.length - 1) - 0 + 1⟩)
      | some (sStr, eStr) =>
        rangeClamp file ((parseU64 sStr).getD 0) ((parseU64 eStr).getD (file.length - 1)) := by
    unfold image_raw_range
    rw [stripPre_append]
  rw [h1, splitOnceDash_append _ ha]

/-- **C1 (amended: stored object of length `L ≥ 1`; for `L = 0` the
clamp underflows instead of responding, see the counterexample).**
For a stored object of length `L ≥ 1` served with header
`Range: bytes=<start>-<end>` (either bound possibly omitted, meaning
from-start / to-end-of-file), the server clamps `end` to `L - 1`; if the
resulting `start` exceeds the clamped `end` it responds
range-not-satisfiable; otherwise it responds with partial-content
status, a body of exactly `end - start + 1` bytes taken from offset
`start`, and a `Content-Range` header `"bytes <start>-<end>/<L>"`. -/
theorem range_request_semantics (file : List Nat) (sOpt eOpt : Option Nat)
    (start endC : Nat)
    (hL : 1 ≤ file.length)
    (hs : ∀ v ∈ sOpt, v < 2 ^ 64) (he : ∀ v ∈ eOpt, v < 2 ^ 64)
    (hstart : start = sOpt.getD 0)
    (hend : endC = min (eOpt.getD (file.length - 1)) (file.length - 1)) :
    image_raw_range file
        (("bytes=".toList) ++
          ((sOpt.map natToDec).getD [] ++ '-' :: (eOpt.map natToDec).getD []))
      = (if start > endC then some .notSatisfiable
         else some (.partialContent
            ⟨(file.drop start).take (endC - start + 1),
              contentRangeHdr start endC file.length, endC - start + 1⟩)) ∧
    (start ≤ endC →
      ((file.drop start).take (endC - start + 1)).length = endC - start + 1) := by
  have hbound : endC ≤ file.length - 1 := by
    rw [hend]
    exact Nat.min_le_right _ _
  constructor
  · have hnd : '-' ∉ (sOpt.map natToDec).getD [] := by
      cases sOpt with
      | none => simp
      | some v => simpa using natToDec_no_dash v
    rw [image_raw_range_dash file _ _ hnd]
    have hs0 : (parseU64 ((sOpt.map natToDec).getD [])).getD 0 = sOpt.getD 0 := by
      cases sOpt with
      | none => simp [parseU64_nil]
      | some v =>
        have := parseU64_natToDec (hs v (by simp [Option.mem_def]))
        simp [this]
    have he0 : (parseU64 ((eOpt.map natToDec).getD [])).getD (file.length - 1)
        = eOpt.getD (file.length - 1) := by
      cases eOpt with
      | none => simp [parseU64_nil]
      | some v =>
        have := parseU64_natToDec (he v (by simp [Option.mem_def]))
        simp [this]
    rw [hs0, he0, rangeClamp_eq_serve file _ _ hL, ← hend, ← hstart]
    rfl
  · intro hle
    simp only [List.length_take, List.length_drop]
    omega

/-- Witness for C1 at a concrete input: a 5-byte object served with
`Range: bytes=1-2` yields bytes `[20, 30]`, `Content-Range`
`bytes 1-2/5` and `Content-Length` 2. -/
theorem range_request_semantics_witness :
    1 ≤ ([10, 20, 30, 40, 50] : List Nat).length ∧
    image_raw_range [10, 20, 30, 40, 50]
        (("bytes=".toList) ++
          (((some 1).map natToDec).getD [] ++ '-' :: ((some 2).map natToDec).getD []))
      = some (.partialContent ⟨[20, 30], contentRangeHdr 1 2 5, 2⟩) := by
  refine ⟨by decide, ?_⟩
  have h := (range_request_semantics [10, 20, 30, 40, 50] (some 1) (some 2) 1 2
    (by decide)
    (by intro v hv; rw [Option.mem_def, Option.some_inj] at hv; omega)
    (by intro v hv; rw [Option.mem_def, Option.some_inj] at hv; omega)
    rfl (by decide)).1
  rw [h]
  decide

/-- **C1, counterexample to the unamended claim.** For a stored object
of length 0 and the header `Range: bytes=-` (both bounds omitted), the
claim predicts a range-not-satisfiable or partial-content response, but
the code produces no response at all: the clamp `total_len - 1`
underflows (a `u64` subtraction panic, modelled as `none`). -/
theorem range_request_zero_length_counterexample :
    image_raw_range [] ("bytes=-".toList) = none ∧
    ∀ r : RangeReply, image_raw_range [] ("bytes=-".toList) ≠ some r := by
  refine ⟨rfl, fun r h => ?_⟩
  rw [show image_raw_range [] ("bytes=-".toList) = none from rfl] at h
  exact Option.noConfusion h

/-- **C8 (refuted: the code underflows).** Evaluating the range path at
the failing input — a zero-length stored object with header
`Range: bytes=5-` — reaches the clamp `end = total_len - 1` with
`total_len = 0`: the unchecked `u64` subtraction underflows (panics in a
debug build), modelled as `none`, instead of producing a response. -/
theorem range_zero_length_underflow :
    image_raw_range [] ("bytes=5-".toList) = none := rfl

/-! ## Upload ingestion (`upload_handler`, main.rs lines 955-986) -/

/-- Outcome of the streaming loop of `upload_handler`:
`ok` (loop finished, file kept), `payloadTooLarge`
(`PAYLOAD_TOO_LARGE`, partial file deleted) or `uploadError`
(`BAD_REQUEST` on a transport error, partial file deleted). -/
inductive UploadOutcome where
  | ok (size : Nat)
  | payloadTooLarge
  | uploadError
deriving DecidableEq

/-- Embedding of the `while let Some(chunk_res) = stream.next()` loop:
each chunk is `Ok(bytes)` or a transport error; `written` is the file
content written so far, `size` the running byte count.  The size check
`size > cfg.max_upload_bytes` runs after adding the chunk length and
before writing the chunk.  The second component is the file left on
disk: `none` after `remove_file` deletes the partial file. -/
def uploadLoop (cap : Nat) :
    List (Except Unit (List Nat)) → List Nat → Nat → UploadOutcome × Option (List Nat)
  | [], written, size => (.ok size, some written)
  | chunk :: rest, written, size =>
    match chunk with
    | .error _ => (.uploadError, none)
    | .ok c =>
      let size' := size + c.length
      if size' > cap then (.payloadTooLarge, none)
      else uploadLoop cap rest (written ++ c) size'

/-- The whole streaming phase of `upload_handler`: empty file opened,
counter at zero. -/
def upload_stream (cap : Nat) (chunks : List (Except Unit (List Nat))) :
    UploadOutcome × Option (List Nat) :=
  uploadLoop cap chunks [] 0

/-- Total number of body bytes carried by the chunk stream. -/
def totalLen (chunks : List (Except Unit (List Nat))) : Nat :=
  (chunks.map (fun c => match c with | .ok l => l.length | .error _ => 0)).sum

theorem uploadLoop_too_large (cap : Nat) :
    ∀ (chunks : List (Except Unit (List Nat))) (written : List Nat) (size : Nat),
      (∀ c ∈ chunks, ∃ l, c = .ok l) → size ≤ cap → size + totalLen chunks > cap →
      uploadLoop cap chunks written size = (.payloadTooLarge, none) := by
  intro chunks
  induction chunks with
  | nil =>
    intro w s _ h1 h2
    exfalso
    simp [totalLen] at h2
    omega
  | cons c rest ih =>
    intro w s hok h1 h2
    obtain ⟨l, rfl⟩ := hok c (List.mem_cons_self c rest)
    have htot : totalLen (Except.ok l :: rest) = l.length + totalLen rest := by
      simp [totalLen]
    by_cases hbig : s + l.length > cap
    · simp [uploadLoop, hbig]
    · simp only [uploadLoop, if_neg hbig]
      exact ih (w ++ l) (s + l.length)
        (fun c hc => hok c (List.mem_cons_of_mem _ hc)) (by omega) (by omega)

/-- **C3.** For every configured cap, a request body (a stream of
successfully read chunks) whose accumulated length exceeds the cap is
aborted with `PayloadTooLarge` and the partial file is deleted: no file
is left on disk.  The loop checks the running count the instant it
exceeds the cap, before writing the offending chunk. -/
theorem upload_cap_enforced (cap : Nat) (chunks : List (Except Unit (List Nat)))
    (hok : ∀ c ∈ chunks, ∃ l, c = .ok l)
    (hbig : totalLen chunks > cap) :
    upload_stream cap chunks = (.payloadTooLarge, none) :=
  uploadLoop_too_large cap chunks [] 0 hok (Nat.zero_le cap) (by omega)

/-- Witness for C3 at a concrete input: cap 3 and a body of exactly
`cap + 1 = 4` bytes streamed in two chunks. -/
theorem upload_cap_enforced_witness :
    (∀ c ∈ [Except.ok (ε := Unit) [1, 2], Except.ok [9, 9]], ∃ l, c = .ok l) ∧
    totalLen [Except.ok (ε := Unit) [1, 2], Except.ok [9, 9]] > 3 ∧
    upload_stream 3 [Except.ok (ε := Unit) [1, 2], Except.ok [9, 9]]
      = (.payloadTooLarge, none) := by
  refine ⟨?_, by decide, ?_⟩
  · intro c hc
    rcases List.mem_cons.mp hc with rfl | hc2
    · exact ⟨_, rfl⟩
    · rcases List.mem_cons.mp hc2 with rfl | hc3
      · exact ⟨_, rfl⟩
      · exact absurd hc3 (List.not_mem_nil c)
  · refine upload_cap_enforced 3 _ ?_ (by decide)
    intro c hc
    rcases List.mem_cons.mp hc with rfl | hc2
    · exact ⟨_, rfl⟩
    · rcases List.mem_cons.mp hc2 with rfl | hc3
      · exact ⟨_, rfl⟩
      · exact absurd hc3 (List.not_mem_nil c)

/-! ## Path containment check (`image_view` lines 1015-1017, `image_raw`
lines 1142-1145, `image_head` lines 1224-1227)

A filesystem path is an absolute flag plus its list of normal
components (Rust `Path::components` semantics: `"."` components are
already normalized away, `".."` stays as an ordinary component). -/

structure RPath where
  absolute : Bool
  comps : List String
deriving DecidableEq

/-- Embedding of Rust `Path::join`: an absolute right operand replaces
the whole path, otherwise the components are appended. -/
def pathJoin (base arg : RPath) : RPath :=
  if arg.absolute then arg else ⟨base.absolute, base.comps ++ arg.comps⟩

/-- Embedding of Rust `Path::starts_with`: a purely syntactic
component-wise prefix test — `".."` components are **not** resolved. -/
def pathStartsWith (p q : RPath) : Bool :=
  (p.absolute == q.absolute) && q.comps.isPrefixOf p.comps

/-- What the operating system resolves a path to when checking
existence or opening it: a `".."` component removes the previously
accumulated component; `none` when the walk escapes the root. -/
def resolveFrom : List String → List String → Option (List String)
  | acc, [] => some acc
  | acc, c :: rest =>
    if c = ".." then
      match acc with
      | [] => none
      | _ :: _ => resolveFrom acc.dropLast rest
    else resolveFrom (acc ++ [c]) rest

def resolve (p : RPath) : Option (List String) :=
  resolveFrom [] p.comps

/-- The gate shared by the object-serving handlers:
`let file_path = upload_dir.join(&filename);`
`if !file_path.starts_with(&upload_dir) || !file_path.exists() { 404 }`.
The file is served iff the joined path passes the syntactic
`starts_with` check and exists; the OS checks existence on the resolved
path (an unresolvable path does not exist). -/
def image_gate (updir fname : RPath) (fsExists : List String → Bool) : Bool :=
  let fp := pathJoin updir fname
  pathStartsWith fp updir &&
    (match resolve fp with
     | some r => fsExists r
     | none => false)

/-- Resolved containment: the resolved path lies within the
directory. -/
def withinDir (updir : RPath) (r : List String) : Bool :=
  updir.comps.isPrefixOf r

/-- **C5 (refuted: the containment check does not stop `..`).**
Evaluating the serving gate at the failing input — upload directory
`/srv/uploads`, requested name `..`, a filesystem in which `/srv`
exists: the unnormalized join `/srv/uploads/..` passes the syntactic
`starts_with` check, the OS resolves it to `/srv`, which exists, so the
handler serves it — yet the resolved path lies outside the upload
directory, where the claim requires a not-found response. -/
theorem path_containment_bypass :
    image_gate ⟨true, ["srv", "uploads"]⟩ ⟨false, [".."]⟩
        (fun r => r == ["srv"]) = true ∧
    resolve (pathJoin ⟨true, ["srv", "uploads"]⟩ ⟨false, [".."]⟩) = some ["srv"] ∧
    withinDir ⟨true, ["srv", "uploads"]⟩ ["srv"] = false := by
  refine ⟨rfl, rfl, ?_⟩
  decide

/-! ## Persistent data model (`User`, `ImageMeta`, main.rs lines 93-166) -/

structure BackgroundPref where
  kind : List Char
  value : List Char
deriving DecidableEq

structure Preferences where
  background : BackgroundPref
deriving DecidableEq

/-- `ImageMeta` record of the objects collection. -/
structure ImageMeta where
  id : List Char
  filename : List Char
  originalname : List Char
  size : Nat
  url : List Char
  uploaded_at : Nat
  owner : Option (List Char)
deriving DecidableEq

/-- `User` record of the accounts collection. -/
structure User where
  username : List Char
  password_hash : List Char
  email : List Char
  created_at : Nat
  role : List Char
  preferences : Preferences
  images : List ImageMeta
deriving DecidableEq

/-! ## Public registration (`public_register`, main.rs lines 1601-1675) -/

/-- ASCII lowercase of a character (`u8::to_ascii_lowercase`). -/
def asciiLower (c : Char) : Char :=
  if 65 ≤ c.toNat ∧ c.toNat ≤ 90 then Char.ofNat (c.toNat + 32) else c

/-- Embedding of `str::eq_ignore_ascii_case`: equal length and equal
bytes after ASCII case folding. -/
def eqIgnoreAsciiCase (a b : List Char) : Bool :=
  a.map asciiLower == b.map asciiLower

/-- Embedding of `str::trim`: strip whitespace from both ends. -/
def trimStr (s : List Char) : List Char :=
  ((s.dropWhile Char.isWhitespace).reverse.dropWhile Char.isWhitespace).reverse

/-- `c.is_ascii_alphanumeric() || "._-".contains(c)`. -/
def isUnameChar (c : Char) : Bool :=
  (48 ≤ c.toNat && c.toNat ≤ 57) || (97 ≤ c.toNat && c.toNat ≤ 122) ||
    (65 ≤ c.toNat && c.toNat ≤ 90) || c == '.' || c == '_' || c == '-'

/-- The JSON body of a registration request (`RegisterBody`). -/
structure RegisterBody where
  username : List Char
  email : List Char
  password : List Char

/-- The responses of `public_register` (status plus message family). -/
inductive RegisterResult where
  | forbidden
  | invalidUsername
  | invalidEmail
  | invalidPassword
  | conflictUsername
  | conflictEmail
  | ok
deriving DecidableEq

/-- Embedding of `public_register`: refuse when registration is
blocked; validate the trimmed username (3-32 chars from
`[A-Za-z0-9._-]`), the email (must contain `'@'` and `'.'`) and the
password (at least 6 bytes); compute `exists_u` (exact username match)
and `exists_e` (ASCII-case-insensitive email match), push the new user
only when neither holds; answer `Conflict` for a username duplicate
first, then for an email duplicate.  `hashFn` is the bcrypt hash and
`nowMs` the creation timestamp. -/
def public_register (hashFn : List Char → List Char) (nowMs : Nat)
    (registerBlocked : Bool) (users : List User) (body : RegisterBody) :
    RegisterResult × List User :=
  if registerBlocked then (.forbidden, users)
  else
    let uname := trimStr body.username
    let email := trimStr body.email
    let pass := body.password
    if uname.length < 3 ∨ 32 < uname.length ∨ ¬ uname.all isUnameChar = true then
      (.invalidUsername, users)
    else if ¬ ('@' ∈ email ∧ '.' ∈ email) then (.invalidEmail, users)
    else if pass.length < 6 then (.invalidPassword, users)
    else
      let exists_u := ∃ u ∈ users, u.username = uname
      let exists_e := ∃ u ∈ users, eqIgnoreAsciiCase u.email email = true
      let users' :=
        if ¬ exists_u ∧ ¬ exists_e then
          users ++ [{ username := uname, password_hash := hashFn pass, email := email,
                      created_at := nowMs, role := ("user".toList),
                      preferences := ⟨⟨("color".toList), ("#05080f".toList)⟩⟩,
                      images := [] }]
        else users
      if exists_u then (.conflictUsername, users')
      else if exists_e then (.conflictEmail, users')
      else (.ok, users')

/-- **C6.** A valid registration request whose trimmed username equals
an existing account's username, or whose trimmed email equals an
existing account's email up to ASCII case, receives a `Conflict`
response and leaves the accounts collection unchanged. -/
theorem public_register_conflict (hashFn : List Char → List Char) (nowMs : Nat)
    (users : List User) (body : RegisterBody)
    (hdup : ∃ u ∈ users, u.username = trimStr body.username ∨
      eqIgnoreAsciiCase u.email (trimStr body.email) = true)
    (hulen : 3 ≤ (trimStr body.username).length ∧ (trimStr body.username).length ≤ 32)
    (huchars : (trimStr body.username).all isUnameChar = true)
    (hemail : '@' ∈ trimStr body.email ∧ '.' ∈ trimStr body.email)
    (hpass : 6 ≤ body.password.length) :
    ((public_register hashFn nowMs false users body).1 = .conflictUsername ∨
      (public_register hashFn nowMs false users body).1 = .conflictEmail) ∧
    (public_register hashFn nowMs false users body).2 = users := by
  have hv1 : ¬ ((trimStr body.username).length < 3 ∨
      32 < (trimStr body.username).length ∨
      ¬ (trimStr body.username).all isUnameChar = true) := by
    push_neg
    exact ⟨by omega, by omega, huchars⟩
  have hv2 : ¬ ¬ ('@' ∈ trimStr body.email ∧ '.' ∈ trimStr body.email) :=
    not_not_intro hemail
  have hv3 : ¬ body.password.length < 6 := by omega
  have hdup' : (∃ u ∈ users, u.username = trimStr body.username) ∨
      (∃ u ∈ users, eqIgnoreAsciiCase u.email (trimStr body.email) = true) := by
    obtain ⟨u, hu, hc⟩ := hdup
    exact hc.imp (fun h => ⟨u, hu, h⟩) (fun h => ⟨u, hu, h⟩)
  simp only [public_register, if_neg (Bool.false_ne_true), if_neg hv1, if_neg hv2,
    if_neg hv3]
  by_cases hu : ∃ u ∈ users, u.username = trimStr body.username
  · have hins : ¬ (¬ (∃ u ∈ users, u.username = trimStr body.username) ∧
        ¬ (∃ u ∈ users, eqIgnoreAsciiCase u.email (trimStr body.email) = true)) :=
      fun h => h.1 hu
    rw [if_neg hins, if_pos hu]
    exact ⟨Or.inl rfl, rfl⟩
  · have he : ∃ u ∈ users, eqIgnoreAsciiCase u.email (trimStr body.email) = true :=
      hdup'.resolve_left hu
    have hins : ¬ (¬ (∃ u ∈ users, u.username = trimStr body.username) ∧
        ¬ (∃ u ∈ users, eqIgnoreAsciiCase u.email (trimStr body.email) = true)) :=
      fun h => h.2 he
    rw [if_neg hins, if_neg hu, if_pos he]
    exact ⟨Or.inr rfl, rfl⟩

/-- Witness for C6 at a concrete input: registering
`alice / a@x.com / secret1` into an empty collection succeeds, and
registering the same pair again yields `Conflict` and leaves the
collection unchanged. -/
theorem public_register_conflict_witness :
    (public_register (fun p => p) 0 false []
        ⟨("alice".toList), ("a@x.com".toList), ("secret1".toList)⟩).1 = .ok ∧
    (((public_register (fun p => p) 5 false
          (public_register (fun p => p) 0 false []
            ⟨("alice".toList), ("a@x.com".toList), ("secret1".toList)⟩).2
          ⟨("alice".toList), ("a@x.com".toList), ("secret1".toList)⟩).1
        = .conflictUsername ∨
      (public_register (fun p => p) 5 false
          (public_register (fun p => p) 0 false []
            ⟨("alice".toList), ("a@x.com".toList), ("secret1".toList)⟩).2
          ⟨("alice".toList), ("a@x.com".toList), ("secret1".toList)⟩).1
        = .conflictEmail) ∧
     (public_register (fun p => p) 5 false
          (public_register (fun p => p) 0 false []
            ⟨("alice".toList), ("a@x.com".toList), ("secret1".toList)⟩).2
          ⟨("alice".toList), ("a@x.com".toList), ("secret1".toList)⟩).2
        = (public_register (fun p => p) 0 false []
            ⟨("alice".toList), ("a@x.com".toList), ("secret1".toList)⟩).2) :=
  ⟨by decide,
    public_register_conflict (fun p => p) 5 _ _
      (by decide) (by decide) (by decide) (by decide) (by decide)⟩

/-! ## Delete by filename (`api_images_delete_by_filename`, main.rs
lines 1265-1307) -/

/-- Splitting on `'/'`, same scheme as `splitDot`. -/
def splitSlash : List Char → List (List Char)
  | [] => [[]]
  | c :: rest =>
    if c = '/' then [] :: splitSlash rest
    else (c :: (splitSlash rest).headD []) :: (splitSlash rest).tail

/-- Embedding of `Path::file_name` for the supplied deletion name: the
last slash-separated component after dropping empty and `"."`
components; `none` when there is no such component or it is `".."`. -/
def rust_file_name (s : List Char) : Option (List Char) :=
  let comps := (splitSlash s).filter (fun c => !(c == []) && !(c == ['.']))
  match comps.getLast? with
  | none => none
  | some c => if c = ['.', '.'] then none else some c

/-- Observable outcome of `api_images_delete_by_filename` after
authentication: whether the success JSON was returned, the path handed
to `remove_file` (the join `upload_dir/safe` of a relative single
component always passes its `starts_with` guard), and the two mutated
collections. -/
structure DeleteByFilenameResult where
  success : Bool
  diskDelete : Option (List Char)
  images : List ImageMeta
  users : List User
deriving DecidableEq

/-- Embedding of `api_images_delete_by_filename` for requester
`requester` (the verified session username, unused after
authentication): reject an empty filename; otherwise let `safe` be the
`file_name` component (empty on `None`), delete the file at
`upload_dir/safe`, retain in the global collection only records whose
`filename` differs from `safe`, and do the same inside every user's
denormalized list. -/
def api_images_delete_by_filename (updir requester suppliedName : List Char)
    (images : List ImageMeta) (users : List User) : DeleteByFilenameResult :=
  if suppliedName = [] then ⟨false, none, images, users⟩
  else
    let safe := (rust_file_name suppliedName).getD []
    ⟨true, some (updir ++ '/' :: safe),
      images.filter (fun m => !(m.filename == safe)),
      users.map (fun u => { u with images := u.images.filter (fun m => !(m.filename == safe)) })⟩

/-- **C9.** For every authenticated session and every plain supplied
filename (one that is its own `file_name` component), the
delete-by-filename operation removes the on-disk file, every record
with that filename from the global collection and every matching
denormalized copy from every account's list, while preserving all other
records — and the result is identical for every requester: ownership is
never checked, so any logged-in user can delete any user's object. -/
theorem delete_by_filename_no_ownership (updir requester requester2 fname : List Char)
    (images : List ImageMeta) (users : List User)
    (hne : fname ≠ [])
    (hplain : rust_file_name fname = some fname) :
    api_images_delete_by_filename updir requester fname images users
      = api_images_delete_by_filename updir requester2 fname images users ∧
    (api_images_delete_by_filename updir requester fname images users).success = true ∧
    (api_images_delete_by_filename updir requester fname images users).diskDelete
      = some (updir ++ '/' :: fname) ∧
    (∀ m ∈ (api_images_delete_by_filename updir requester fname images users).images,
      m.filename ≠ fname) ∧
    (∀ m ∈ images, m.filename ≠ fname →
      m ∈ (api_images_delete_by_filename updir requester fname images users).images) ∧
    (∀ u ∈ (api_images_delete_by_filename updir requester fname images users).users,
      ∀ m ∈ u.images, m.filename ≠ fname) := by
  have hsafe : (rust_file_name fname).getD [] = fname := by rw [hplain]; rfl
  simp only [api_images_delete_by_filename, if_neg hne, hsafe]
  refine ⟨trivial, trivial, trivial, ?_, ?_, ?_⟩
  · intro m hm
    have := (List.mem_filter.mp hm).2
    simpa using this
  · intro m hm hne2
    exact List.mem_filter.mpr ⟨hm, by simpa using hne2⟩
  · intro u hu m hm
    obtain ⟨u0, _, rfl⟩ := List.mem_map.mp hu
    have := (List.mem_filter.mp hm).2
    simpa using this

/-- Witness for C9 at a concrete input: deleting `cat.png` as requester
`mallory` removes `alice`'s record from both collections. -/
theorem delete_by_filename_no_ownership_witness :
    ("cat.png".toList ≠ ([] : List Char)) ∧
    rust_file_name ("cat.png".toList) = some ("cat.png".toList) ∧
    (api_images_delete_by_filename ("up".toList) ("mallory".toList) ("cat.png".toList)
        [⟨("id1".toList), ("cat.png".toList), ("cat.png".toList), 3, ("u".toList), 0,
          some ("alice".toList)⟩]
        [⟨("alice".toList), ("h".toList), ("a@x.com".toList), 0, ("user".toList),
          ⟨⟨("color".toList), ("#05080f".toList)⟩⟩,
          [⟨("id1".toList), ("cat.png".toList), ("cat.png".toList), 3, ("u".toList), 0,
            some ("alice".toList)⟩]⟩]
      = api_images_delete_by_filename ("up".toList) ("bob".toList) ("cat.png".toList)
        [⟨("id1".toList), ("cat.png".toList), ("cat.png".toList), 3, ("u".toList), 0,
          some ("alice".toList)⟩]
        [⟨("alice".toList), ("h".toList), ("a@x.com".toList), 0, ("user".toList),
          ⟨⟨("color".toList), ("#05080f".toList)⟩⟩,
          [⟨("id1".toList), ("cat.png".toList), ("cat.png".toList), 3, ("u".toList), 0,
            some ("alice".toList)⟩]⟩]) ∧
    (api_images_delete_by_filename ("up".toList) ("mallory".toList) ("cat.png".toList)
        [⟨("id1".toList), ("cat.png".toList), ("cat.png".toList), 3, ("u".toList), 0,
          some ("alice".toList)⟩]
        [⟨("alice".toList), ("h".toList), ("a@x.com".toList), 0, ("user".toList),
          ⟨⟨("color".toList), ("#05080f".toList)⟩⟩,
          [⟨("id1".toList), ("cat.png".toList), ("cat.png".toList), 3, ("u".toList), 0,
            some ("alice".toList)⟩]⟩]).images = [] := by
  refine ⟨by decide, by decide, ?_, by decide⟩
  exact (delete_by_filename_no_ownership ("up".toList) ("mallory".toList) ("bob".toList)
    ("cat.png".toList) _ _ (by decide) (by decide)).1

end ADEdge
